import Mathlib

/-!
Verification of the educational RSA engine of CipherChatConnect.

The definitions below are a shallow embedding of the TypeScript source:

* `isPrime`, `gcd`, `modInverse`, `modPow`, `generateRSAKeyPair`,
  `getKeyGenerationSteps`, `encryptMessage`, `decryptMessage`,
  `getEncryptionSteps` embed the functions of the RSA module
  (`src/unnamed/part_008`).
* `decrypt` embeds the ciphertext-handling pipeline of the decrypt handler
  (`src/unnamed/part_001`, `handleDecrypt`): each textual element is trimmed,
  parsed with JavaScript `parseInt`, the whole sequence is rejected when any
  element parsed to `NaN`, and otherwise `decryptMessage` runs on the numbers.

Numeric conventions of the embedding:

* All JavaScript numbers appearing in the engine are integers inside the
  float-safe range, so `Nat` (and `Int` where the source can receive negative
  values) with exact `%`, `*`, `/` model them faithfully.  JavaScript `%` on
  possibly-negative dividends is `Int.tmod` (remainder with the sign of the
  dividend); `Math.floor(e / 2)` on a non-negative integer is `Nat` division.
* The JavaScript condition `i <= Math.sqrt(n)` on integers is embedded as
  `i * i ≤ n`, which is the exact integer meaning of that test.
* A JavaScript string is modelled as the list of its Unicode code points
  (`List Nat`, lone surrogates allowed); `Array.from` iterates these code
  points, while `charCodeAt(0)` yields the first UTF-16 code unit of a
  character, embedded by `charCodeAt0`.  A string compared for equality is
  compared as its UTF-16 code-unit sequence, computed by `stringUnits`.
  `String.fromCharCode` applies `ToUint16`, embedded by `toUint16`.
* The source `while` loops are embedded with an explicit fuel argument that is
  a proved upper bound on the number of iterations the source loop performs,
  so the embedded functions compute exactly what the source computes (the
  out-of-fuel branches are unreachable for the inputs the source can reach,
  which the lemmas below establish where it matters).
* The `mod = 0` case of `modPow` would produce `NaN` in JavaScript; every
  claim about `modPow` assumes a positive modulus, so the embedding is only
  used there.
-/

namespace RSA

/-- JavaScript `String.prototype.trim` whitespace test, restricted to the
usual ASCII whitespace characters that can occur around a number. -/
def isJSWhitespace (c : Char) : Bool :=
  c = ' ' || c = '\t' || c = '\n' || c = '\r'

/-- JavaScript `String.prototype.trim` on the code-point list of a string. -/
def jsTrim (cs : List Char) : List Char :=
  ((cs.dropWhile isJSWhitespace).reverse.dropWhile isJSWhitespace).reverse

/-- Value of a decimal digit list (most significant first). -/
def digitsToNat (cs : List Char) : Nat :=
  cs.foldl (fun acc c => acc * 10 + (c.toNat - 48)) 0

/-- Value of a hexadecimal digit character. -/
def hexVal (c : Char) : Nat :=
  if c.isDigit then c.toNat - 48
  else if 'a' ≤ c ∧ c ≤ 'f' then c.toNat - 87
  else c.toNat - 55

/-- Test for a hexadecimal digit character. -/
def isHexDigit (c : Char) : Bool :=
  c.isDigit || ('a' ≤ c && c ≤ 'f') || ('A' ≤ c && c ≤ 'F')

/-- Value of a hexadecimal digit list (most significant first). -/
def hexDigitsToNat (cs : List Char) : Nat :=
  cs.foldl (fun acc c => acc * 16 + hexVal c) 0

/-- Longest leading run of decimal digits, `none` when it is empty:
the digit-consuming core of JavaScript `parseInt` with radix 10. -/
def parseDecimal (cs : List Char) : Option Nat :=
  let ds := cs.takeWhile Char.isDigit
  if ds.isEmpty then none else some (digitsToNat ds)

/-- Longest leading run of hexadecimal digits, `none` when it is empty. -/
def parseHex (cs : List Char) : Option Nat :=
  let ds := cs.takeWhile isHexDigit
  if ds.isEmpty then none else some (hexDigitsToNat ds)

/-- Unsigned part of JavaScript `parseInt` (radix argument omitted in the
source, so radix 10 unless the input carries a `0x`/`0X` prefix). -/
def parseUnsigned : List Char → Option Nat
  | '0' :: 'x' :: rest => parseHex rest
  | '0' :: 'X' :: rest => parseHex rest
  | cs => parseDecimal cs

/-- JavaScript `parseInt(s)`: skip whitespace, optional sign, then the longest
parsable prefix; `none` models the `NaN` result. -/
def jsParseInt (s : String) : Option Int :=
  match jsTrim s.data with
  | '-' :: rest => (parseUnsigned rest).map (fun n => -(n : Int))
  | '+' :: rest => (parseUnsigned rest).map (fun n => (n : Int))
  | cs => (parseUnsigned cs).map (fun n => (n : Int))

/-- Trial-division loop of `isPrime` (source: `for (let i = 3; i <= Math.sqrt(n);
i += 2)`), with fuel bounding the number of iterations. -/
def isPrimeAux (n : Nat) : Nat → Nat → Bool
  | 0, _ => true
  | fuel + 1, i =>
    if i * i ≤ n then
      (if n % i = 0 then false else isPrimeAux n fuel (i + 2))
    else true

/-- `isPrime` from the source: `n < 2` and even cases first, then odd trial
division up to the integer square root. -/
def isPrime (n : Nat) : Bool :=
  if n < 2 then false
  else if n = 2 then true
  else if n % 2 = 0 then false
  else isPrimeAux n n 3

/-- Euclidean loop of `gcd` (source: `while (b !== 0) { ... }`), with fuel. -/
def gcdAux : Nat → Nat → Nat → Nat
  | 0, a, _ => a
  | fuel + 1, a, b => if b = 0 then a else gcdAux fuel b (a % b)

/-- `gcd` from the source: iterative Euclidean algorithm. -/
def gcd (a b : Nat) : Nat := gcdAux (b + 1) a b

/-- Search loop of `modInverse` (source: `for (let x = 1; x < m; x++)`),
with fuel. -/
def modInverseAux (a m : Nat) : Nat → Nat → Option Nat
  | 0, _ => none
  | fuel + 1, x =>
    if x < m then
      (if (a * x) % m = 1 then some x else modInverseAux a m fuel (x + 1))
    else none

/-- `modInverse` from the source: brute-force search for the inverse of `a`
modulo `m` over `1 ≤ x < m`, `none` models the `null` result. -/
def modInverse (a m : Nat) : Option Nat := modInverseAux a m m 1

/-- Square-and-multiply loop of `modPow` (source: `while (exp > 0)`), with
fuel; the state carries the current base, exponent and accumulated result. -/
def modPowAux (m : Nat) : Nat → Nat → Nat → Nat → Nat
  | 0, _, _, r => r
  | fuel + 1, b, e, r =>
    if 0 < e then
      modPowAux m fuel ((b * b) % m) (e / 2)
        (if e % 2 = 1 then (r * b) % m else r)
    else r

/-- `modPow` from the source: the base is reduced modulo `m` before the loop
starts, and the result accumulator starts at 1. -/
def modPow (b e m : Nat) : Nat := modPowAux m (e + 1) (b % m) e 1

/-- `modPow` on a possibly negative base, as the source computes it when fed a
negative parsed ciphertext element: JavaScript `%` is `Int.tmod` there. -/
def modPowIntAux (m : Nat) : Nat → Int → Nat → Int → Int
  | 0, _, _, r => r
  | fuel + 1, b, e, r =>
    if 0 < e then
      modPowIntAux m fuel ((b * b).tmod (m : Int)) (e / 2)
        (if e % 2 = 1 then (r * b).tmod (m : Int) else r)
    else r

/-- `modPow` with an `Int` base (exponent and modulus stay non-negative in
every call site of the source). -/
def modPowInt (b : Int) (e m : Nat) : Int :=
  modPowIntAux m (e + 1) (b.tmod (m : Int)) e 1

/-- `ToUint16`, applied by `String.fromCharCode`: the argument modulo `2^16`,
non-negative. -/
def toUint16 (x : Int) : Nat := (x.emod 65536).toNat

/-- `charCodeAt(0)` of a one-code-point JavaScript string: the code point
itself in the basic multilingual plane, otherwise the leading surrogate of
its UTF-16 encoding. -/
def charCodeAt0 (cp : Nat) : Nat :=
  if cp < 65536 then cp else 55296 + (cp - 65536) / 1024

/-- UTF-16 code units of one code point. -/
def utf16Units (cp : Nat) : List Nat :=
  if cp < 65536 then [cp]
  else [55296 + (cp - 65536) / 1024, 56320 + (cp - 65536) % 1024]

/-- UTF-16 code-unit sequence of a string given as its code points: two
JavaScript strings are equal exactly when these sequences are equal. -/
def stringUnits (text : List Nat) : List Nat := text.flatMap utf16Units

/-- `publicKey` component of `RSAKeyPair`. -/
structure PublicKey where
  e : Nat
  n : Nat
deriving Repr, DecidableEq

/-- `privateKey` component of `RSAKeyPair`. -/
structure PrivateKey where
  d : Nat
  n : Nat
deriving Repr, DecidableEq

/-- `RSAKeyPair` interface from the source. -/
structure RSAKeyPair where
  publicKey : PublicKey
  privateKey : PrivateKey
  p : Nat
  q : Nat
  phi : Nat
deriving Repr, DecidableEq

/-- The three failure kinds `generateRSAKeyPair` can throw: the two
precondition violations and the defensive missing-inverse check. -/
inductive KeyGenError where
  | invalidPrime
  | duplicatePrime
  | keyDerivationFailed
deriving Repr, DecidableEq

/-- The failure kind of the decrypt pipeline (the source throws
`Invalid encrypted message format`; the spec calls the kind
`MalformedCiphertext`). -/
inductive DecryptError where
  | malformedCiphertext
deriving Repr, DecidableEq

/-- Exponent-search loop of `generateRSAKeyPair` (source: `let e = 3;
while (gcd(e, phi) !== 1) e += 2;`), with fuel. -/
def findEAux (phi : Nat) : Nat → Nat → Nat
  | 0, e => e
  | fuel + 1, e => if gcd e phi = 1 then e else findEAux phi fuel (e + 2)

/-- The public exponent the source selects: the first odd candidate from 3
upwards that is coprime with `phi`.  Fuel `phi + 2` is enough for every
`phi ≥ 1` (proved below); `generateRSAKeyPair` only calls this with
`phi ≥ 1` because both inputs passed the primality check. -/
def findE (phi : Nat) : Nat := findEAux phi (phi + 2) 3

/-- `generateRSAKeyPair` from the source: primality check, distinctness
check, `n` and `phi`, exponent search, brute-force inverse, and the
defensive `if (!d)` check (only `null` is falsy there, since `modInverse`
never returns 0). -/
def generateRSAKeyPair (p q : Nat) : Except KeyGenError RSAKeyPair :=
  if ¬ (isPrime p = true ∧ isPrime q = true) then .error .invalidPrime
  else if p = q then .error .duplicatePrime
  else
    let n := p * q
    let phi := (p - 1) * (q - 1)
    let e := findE phi
    match modInverse e phi with
    | none => .error .keyDerivationFailed
    | some d => .ok ⟨⟨e, n⟩, ⟨d, n⟩, p, q, phi⟩

/-- `RSAMathSteps` interface from the source. -/
structure RSAMathSteps where
  nCalculation : String
  phiCalculation : String
  eCalculation : String
  dCalculation : String
deriving Repr, DecidableEq

/-- `getKeyGenerationSteps` from the source. -/
def getKeyGenerationSteps (p q : Nat) (keyPair : RSAKeyPair) : RSAMathSteps :=
  { nCalculation := toString p ++ " × " ++ toString q ++ " = " ++ toString keyPair.publicKey.n
    phiCalculation := "(" ++ toString p ++ "-1) × (" ++ toString q ++ "-1) = " ++ toString keyPair.phi
    eCalculation := toString keyPair.publicKey.e ++ " (coprime with φ(n))"
    dCalculation := toString keyPair.publicKey.e ++ "⁻¹ mod " ++ toString keyPair.phi ++ " = " ++ toString keyPair.privateKey.d }

/-- The four trace records of a key-generation step object, in source order. -/
def RSAMathSteps.records (s : RSAMathSteps) : List String :=
  [s.nCalculation, s.phiCalculation, s.eCalculation, s.dCalculation]

/-- `EncryptionSteps` interface from the source; the `character` field holds
the one-code-point string the record narrates. -/
structure EncryptionSteps where
  character : Nat
  ascii : Nat
  calculation : String
  result : Nat
deriving Repr, DecidableEq

/-- `encryptMessage` from the source: `Array.from(message)` iterates code
points, each mapped through `charCodeAt(0)` and `modPow`. -/
def encryptMessage (message : List Nat) (publicKey : PublicKey) : List Nat :=
  message.map (fun ch => modPow (charCodeAt0 ch) publicKey.e publicKey.n)

/-- `decryptMessage` from the source: each ciphertext number is decrypted
with `modPow` and turned into a UTF-16 code unit by `String.fromCharCode`;
the value returned is the code-unit sequence of the joined result string. -/
def decryptMessage (ciphertext : List Int) (privateKey : PrivateKey) : List Nat :=
  ciphertext.map (fun num => toUint16 (modPowInt num privateKey.d privateKey.n))

/-- `getEncryptionSteps` from the source. -/
def getEncryptionSteps (message : List Nat) (publicKey : PublicKey) : List EncryptionSteps :=
  message.map (fun ch =>
    let ascii := charCodeAt0 ch
    let result := modPow ascii publicKey.e publicKey.n
    { character := ch
      ascii := ascii
      calculation := toString ascii ++ "^" ++ toString publicKey.e ++ " mod " ++ toString publicKey.n
      result := result })

/-- The decrypt pipeline of the decrypt handler (`src/unnamed/part_001`):
trim and `parseInt` each textual element, reject the whole sequence when some
element parsed to `NaN`, otherwise run `decryptMessage`.  The error branch
carries no plaintext, exactly as the thrown exception aborts the handler
before any output is stored. -/
def decrypt (elems : List String) (privateKey : PrivateKey) : Except DecryptError (List Nat) :=
  let nums := elems.map jsParseInt
  if nums.any Option.isNone then .error .malformedCiphertext
  else .ok (decryptMessage (nums.filterMap id) privateKey)

/-- A well-formed non-negative integer literal: non-empty and all decimal
digits.  This is the notion the spec's error condition quantifies over. -/
def isWellFormedNonNegInt (s : String) : Bool :=
  ¬ s.data.isEmpty && s.data.all Char.isDigit

end RSA

namespace RSA

/-! ### The source `gcd` computes `Nat.gcd` -/

theorem gcdAux_eq : ∀ fuel a b, b ≤ fuel → gcdAux fuel a b = Nat.gcd a b := by
  intro fuel
  induction fuel with
  | zero =>
    intro a b hb
    have hb0 : b = 0 := Nat.le_zero.mp hb
    subst hb0
    simp [gcdAux]
  | succ fuel ih =>
    intro a b hb
    by_cases h0 : b = 0
    · subst h0; simp [gcdAux]
    · have hmod : a % b ≤ fuel := by
        have : a % b < b := Nat.mod_lt a (Nat.pos_of_ne_zero h0)
        omega
      calc gcdAux (fuel + 1) a b = gcdAux fuel b (a % b) := by simp [gcdAux, h0]
        _ = Nat.gcd b (a % b) := ih b (a % b) hmod
        _ = Nat.gcd a b := by
            rw [Nat.gcd_comm b (a % b), ← Nat.gcd_rec b a, Nat.gcd_comm b a]

theorem gcd_eq (a b : Nat) : gcd a b = Nat.gcd a b :=
  gcdAux_eq (b + 1) a b (Nat.le_succ b)

theorem gcd_self_succ_eq_one (s : Nat) : Nat.gcd s (s + 1) = 1 := by
  rw [Nat.gcd_comm, show s + 1 = 1 + s by omega, Nat.gcd_add_self_left, Nat.gcd_one_left]

/-! ### The exponent search loop -/

theorem findEAux_spec (phi : Nat) :
    ∀ fuel e, (∃ k, k < fuel ∧ Nat.gcd (e + 2 * k) phi = 1) →
    ∃ k0, k0 < fuel ∧ findEAux phi fuel e = e + 2 * k0 ∧
      Nat.gcd (e + 2 * k0) phi = 1 ∧
      ∀ j, j < k0 → Nat.gcd (e + 2 * j) phi ≠ 1 := by
  intro fuel
  induction fuel with
  | zero => intro e ⟨k, hk, _⟩; omega
  | succ fuel ih =>
    intro e ⟨k, hk, hgcd⟩
    by_cases h1 : gcd e phi = 1
    · refine ⟨0, by omega, by simp [findEAux, h1], ?_, by omega⟩
      simpa using (gcd_eq e phi) ▸ h1
    · have hk0 : k ≠ 0 := by
        intro h0
        subst h0
        simp only [Nat.mul_zero, Nat.add_zero] at hgcd
        exact h1 (by rw [gcd_eq]; exact hgcd)
      obtain ⟨k2, rfl⟩ : ∃ k2, k = k2 + 1 := ⟨k - 1, by omega⟩
      have hex : ∃ k3, k3 < fuel ∧ Nat.gcd (e + 2 + 2 * k3) phi = 1 :=
        ⟨k2, by omega, by have : e + 2 + 2 * k2 = e + 2 * (k2 + 1) := by omega
                          rw [this]; exact hgcd⟩
      obtain ⟨k0, hk0lt, heq, hg, hmin⟩ := ih (e + 2) hex
      refine ⟨k0 + 1, by omega, ?_, ?_, ?_⟩
      · rw [show findEAux phi (fuel + 1) e = findEAux phi fuel (e + 2) by
            simp [findEAux, h1], heq]
        omega
      · have : e + 2 + 2 * k0 = e + 2 * (k0 + 1) := by omega
        rw [← this]; exact hg
      · intro j hj
        rcases Nat.eq_zero_or_pos j with hj0 | hjpos
        · subst hj0
          intro hc
          exact h1 (by rw [gcd_eq]; simpa using hc)
        · obtain ⟨j2, rfl⟩ : ∃ j2, j = j2 + 1 := ⟨j - 1, by omega⟩
          have := hmin j2 (by omega)
          intro hc
          exact this (by have h : e + 2 + 2 * j2 = e + 2 * (j2 + 1) := by omega
                         rw [h]; exact hc)

theorem findE_exists_coprime (phi : Nat) (h : 1 ≤ phi) :
    ∃ k, k < phi + 2 ∧ Nat.gcd (3 + 2 * k) phi = 1 := by
  rcases Nat.lt_or_ge phi 3 with h3 | h3
  · refine ⟨0, by omega, ?_⟩
    interval_cases phi <;> decide
  · rcases Nat.even_or_odd phi with he | ho
    · obtain ⟨t, ht⟩ := he
      refine ⟨(phi - 4) / 2, by omega, ?_⟩
      have heq : 3 + 2 * ((phi - 4) / 2) = phi - 1 := by omega
      rw [heq]
      obtain ⟨s, hs⟩ : ∃ s, phi = s + 1 := ⟨phi - 1, by omega⟩
      rw [hs]
      simpa using gcd_self_succ_eq_one s
    · obtain ⟨t, ht⟩ := ho
      refine ⟨(phi - 1) / 2, by omega, ?_⟩
      have heq : 3 + 2 * ((phi - 1) / 2) = phi + 2 := by omega
      rw [heq]
      have h1 : Nat.gcd (phi + 2) phi = Nat.gcd 2 phi := by
        rw [Nat.gcd_comm (phi + 2) phi, Nat.gcd_rec phi (phi + 2)]
        have : (phi + 2) % phi = 2 := by
          rw [Nat.add_mod_left phi 2]
          exact Nat.mod_eq_of_lt (by omega)
        rw [this, Nat.gcd_comm]
      rw [h1, Nat.gcd_rec 2 phi]
      have : phi % 2 = 1 := by omega
      rw [this]
      decide

theorem findE_spec (phi : Nat) (h : 1 ≤ phi) :
    Nat.gcd (findE phi) phi = 1 ∧ 3 ≤ findE phi ∧ findE phi % 2 = 1 ∧
    ∀ e2, 3 ≤ e2 → e2 % 2 = 1 → e2 < findE phi → Nat.gcd e2 phi ≠ 1 := by
  obtain ⟨k, hk, hgcd⟩ := findE_exists_coprime phi h
  obtain ⟨k0, _, heq, hg, hmin⟩ := findEAux_spec phi (phi + 2) 3 ⟨k, hk, hgcd⟩
  rw [findE, heq]
  refine ⟨hg, by omega, by omega, ?_⟩
  intro e2 h3 hodd hlt
  have hj : e2 = 3 + 2 * ((e2 - 3) / 2) := by omega
  rw [hj]
  exact hmin ((e2 - 3) / 2) (by omega)

theorem findE_lt_phi (phi : Nat) (h4 : 4 ≤ phi) (heven : phi % 2 = 0) :
    findE phi < phi := by
  obtain ⟨hg, h3, hodd, hmin⟩ := findE_spec phi (by omega)
  by_contra hge
  have hcand : Nat.gcd (phi - 1) phi = 1 := by
    obtain ⟨s, hs⟩ : ∃ s, phi = s + 1 := ⟨phi - 1, by omega⟩
    rw [hs]
    simpa using gcd_self_succ_eq_one s
  rcases Nat.lt_or_ge (phi - 1) (findE phi) with hlt | hge2
  · exact hmin (phi - 1) (by omega) (by omega) hlt hcand
  · omega

/-! ### The brute-force modular inverse -/

theorem modInverseAux_some {a m : Nat} :
    ∀ fuel x y, modInverseAux a m fuel x = some y →
    x ≤ y ∧ y < m ∧ (a * y) % m = 1 := by
  intro fuel
  induction fuel with
  | zero => intro x y h; simp [modInverseAux] at h
  | succ fuel ih =>
    intro x y h
    by_cases hx : x < m
    · by_cases hfound : (a * x) % m = 1
      · simp [modInverseAux, hx, hfound] at h
        subst h
        exact ⟨Nat.le_refl x, hx, hfound⟩
      · simp only [modInverseAux, if_pos hx, if_neg hfound] at h
        obtain ⟨hle, hlt, hp⟩ := ih (x + 1) y h
        exact ⟨by omega, hlt, hp⟩
    · simp [modInverseAux, hx] at h

theorem modInverseAux_isSome {a m : Nat} :
    ∀ fuel x, m ≤ x + fuel →
    (∃ y, x ≤ y ∧ y < m ∧ (a * y) % m = 1) →
    (modInverseAux a m fuel x).isSome = true := by
  intro fuel
  induction fuel with
  | zero => intro x hfuel ⟨y, hxy, hym, _⟩; omega
  | succ fuel ih =>
    intro x hfuel ⟨y, hxy, hym, hp⟩
    have hx : x < m := by omega
    by_cases hfound : (a * x) % m = 1
    · simp [modInverseAux, hx, hfound]
    · simp only [modInverseAux, if_pos hx, if_neg hfound]
      have hxy2 : x + 1 ≤ y := by
        rcases Nat.eq_or_lt_of_le hxy with heq | hlt
        · subst heq; exact absurd hp hfound
        · omega
      exact ih (x + 1) (by omega) ⟨y, hxy2, hym, hp⟩

theorem modInverse_some {a m y : Nat} (h : modInverse a m = some y) :
    1 ≤ y ∧ y < m ∧ (a * y) % m = 1 :=
  modInverseAux_some m 1 y h

theorem modInverse_isSome {a m : Nat}
    (h : ∃ y, 1 ≤ y ∧ y < m ∧ (a * y) % m = 1) :
    (modInverse a m).isSome = true :=
  modInverseAux_isSome m 1 (by omega) h

theorem exists_mod_inverse {a m : Nat} (hco : Nat.gcd a m = 1) (hm : 1 < m) :
    ∃ y, 1 ≤ y ∧ y < m ∧ (a * y) % m = 1 := by
  obtain ⟨w, hw⟩ := Nat.exists_mul_emod_eq_one_of_coprime hco hm
  refine ⟨w % m, ?_, Nat.mod_lt w (by omega), ?_⟩
  · rcases Nat.eq_zero_or_pos (w % m) with h0 | h1
    · exfalso
      rw [Nat.mul_mod, h0, Nat.mul_zero, Nat.zero_mod] at hw
      · omega
    · exact h1
  · calc (a * (w % m)) % m = (a % m) * (w % m % m) % m := by rw [Nat.mul_mod]
      _ = (a % m) * (w % m) % m := by rw [Nat.mod_mod_of_dvd w (dvd_refl m)]
      _ = (a * w) % m := by rw [← Nat.mul_mod]
      _ = 1 := hw

theorem mod_inverse_unique {a m x y : Nat} (hm : 1 < m) (hx : x < m) (hy : y < m)
    (hax : (a * x) % m = 1) (hay : (a * y) % m = 1) : x = y := by
  have h1m : 1 % m = 1 := Nat.mod_eq_of_lt hm
  have hax2 : a * x ≡ 1 [MOD m] := by unfold Nat.ModEq; rw [hax, h1m]
  have hay2 : a * y ≡ 1 [MOD m] := by unfold Nat.ModEq; rw [hay, h1m]
  have hchain : x ≡ y [MOD m] := by
    calc x = x * 1 := by ring
      _ ≡ x * (a * y) [MOD m] := (hay2.symm.mul_left x)
      _ = y * (a * x) := by ring
      _ ≡ y * 1 [MOD m] := (hax2.mul_left y)
      _ = y := by ring
  have := hchain
  unfold Nat.ModEq at this
  rwa [Nat.mod_eq_of_lt hx, Nat.mod_eq_of_lt hy] at this

theorem modInverse_eq_none {a m : Nat} (h : Nat.gcd a m ≠ 1) :
    modInverse a m = none := by
  cases hmi : modInverse a m with
  | none => rfl
  | some y =>
    exfalso
    obtain ⟨_, hym, hp⟩ := modInverse_some hmi
    have hdvd1 : Nat.gcd a m ∣ 1 := by
      have hg_ay : Nat.gcd a m ∣ a * y := Dvd.dvd.mul_right (Nat.gcd_dvd_left a m) y
      have hg_m : Nat.gcd a m ∣ m * (a * y / m) :=
        Dvd.dvd.mul_right (Nat.gcd_dvd_right a m) _
      have hsplit : a * y = m * (a * y / m) + 1 := by
        have := Nat.div_add_mod (a * y) m
        omega
      have : Nat.gcd a m ∣ a * y - m * (a * y / m) := Nat.dvd_sub' hg_ay hg_m
      rwa [show a * y - m * (a * y / m) = 1 by omega] at this
    exact h (Nat.eq_one_of_dvd_one hdvd1)

/-! ### `modPow` computes modular exponentiation -/

theorem modPowAux_zero_exp (m : Nat) : ∀ fuel b r, modPowAux m fuel b 0 r = r := by
  intro fuel b r
  cases fuel <;> simp [modPowAux]

theorem modPowAux_eq (m : Nat) (hm : 0 < m) :
    ∀ fuel e b r, e < 2 ^ fuel → r < m →
    modPowAux m fuel b e r = (r * b ^ e) % m := by
  intro fuel
  induction fuel with
  | zero =>
    intro e b r he hr
    have he0 : e = 0 := by omega
    subst he0
    simp [modPowAux, Nat.mod_eq_of_lt hr]
  | succ fuel ih =>
    intro e b r he hr
    rcases Nat.eq_zero_or_pos e with he0 | hepos
    · subst he0
      simp [modPowAux, Nat.mod_eq_of_lt hr]
    · have hstep : modPowAux m (fuel + 1) b e r =
          modPowAux m fuel ((b * b) % m) (e / 2)
            (if e % 2 = 1 then (r * b) % m else r) := by
        simp [modPowAux, hepos]
      have hehalf : e / 2 < 2 ^ fuel := by
        have h2 : (2:Nat) ^ (fuel + 1) = 2 * 2 ^ fuel := by ring
        omega
      have hbb : ∀ k, ((b * b) % m) ^ k % m = (b * b) ^ k % m := by
        intro k
        rw [← Nat.pow_mod]
      rcases Nat.even_or_odd e with heven | hodd
      · have hmod2 : e % 2 = 0 := Nat.even_iff.mp heven
        rw [hstep, if_neg (by omega)]
        rw [ih (e / 2) ((b * b) % m) r hehalf hr]
        have hexp : b ^ e = (b * b) ^ (e / 2) := by
          rw [← Nat.pow_two, ← Nat.pow_mul]
          congr 1
          omega
        calc (r * ((b * b) % m) ^ (e / 2)) % m
            = (r % m) * (((b * b) % m) ^ (e / 2) % m) % m := by rw [← Nat.mul_mod]
          _ = (r % m) * ((b * b) ^ (e / 2) % m) % m := by rw [hbb]
          _ = (r * (b * b) ^ (e / 2)) % m := by rw [← Nat.mul_mod]
          _ = (r * b ^ e) % m := by rw [hexp]
      · have hmod2 : e % 2 = 1 := Nat.odd_iff.mp hodd
        rw [hstep, if_pos hmod2]
        rw [ih (e / 2) ((b * b) % m) ((r * b) % m) hehalf (Nat.mod_lt _ hm)]
        have hexp : b ^ e = (b * b) ^ (e / 2) * b := by
          rw [← Nat.pow_two, ← Nat.pow_mul]
          rw [← Nat.pow_succ]
          congr 1
          omega
        calc ((r * b) % m * ((b * b) % m) ^ (e / 2)) % m
            = ((r * b) % m % m) * (((b * b) % m) ^ (e / 2) % m) % m := by
              rw [← Nat.mul_mod]
          _ = ((r * b) % m) * ((b * b) ^ (e / 2) % m) % m := by
              rw [hbb, Nat.mod_mod_of_dvd _ (dvd_refl m)]
          _ = ((r * b) * ((b * b) ^ (e / 2))) % m := by
              rw [Nat.mul_mod ((r * b)) ((b * b) ^ (e / 2)) m]
          _ = (r * (b * b) ^ (e / 2) * b) % m := by ring_nf
          _ = (r * b ^ e) % m := by rw [hexp]; ring_nf

theorem modPow_eq (b e m : Nat) (hm : 1 < m) : modPow b e m = b ^ e % m := by
  unfold modPow
  rw [modPowAux_eq m (by omega) (e + 1) e (b % m) 1
      (Nat.lt_of_lt_of_le (Nat.lt_two_pow e)
        (Nat.pow_le_pow_right (by omega) (Nat.le_succ e))) hm]
  rw [Nat.one_mul, ← Nat.pow_mod]

theorem modPow_zero_exp (b m : Nat) : modPow b 0 m = 1 := rfl

theorem modPowAux_lt (m : Nat) (hm : 0 < m) :
    ∀ fuel e b r, 0 < e → e < 2 ^ fuel → modPowAux m fuel b e r < m := by
  intro fuel
  induction fuel with
  | zero => intro e b r hpos he; omega
  | succ fuel ih =>
    intro e b r hpos he
    have hstep : modPowAux m (fuel + 1) b e r =
        modPowAux m fuel ((b * b) % m) (e / 2)
          (if e % 2 = 1 then (r * b) % m else r) := by
      simp [modPowAux, hpos]
    rw [hstep]
    rcases Nat.lt_or_ge e 2 with h1 | h2
    · have he1 : e = 1 := by omega
      subst he1
      rw [show (1:Nat) / 2 = 0 by decide, modPowAux_zero_exp]
      rw [if_pos (by decide)]
      exact Nat.mod_lt _ hm
    · have hehalf_pos : 0 < e / 2 := by omega
      have hehalf : e / 2 < 2 ^ fuel := by
        have h2p : (2:Nat) ^ (fuel + 1) = 2 * 2 ^ fuel := by ring
        omega
      exact ih (e / 2) ((b * b) % m) _ hehalf_pos hehalf

theorem modPow_lt (b e m : Nat) (hm : 0 < m) (he : 0 < e) : modPow b e m < m :=
  modPowAux_lt m hm (e + 1) e (b % m) 1 he
    (Nat.lt_of_lt_of_le (Nat.lt_two_pow e)
      (Nat.pow_le_pow_right (by omega) (Nat.le_succ e)))

theorem modPow_base_mod (b e m : Nat) : modPow b e m = modPow (b % m) e m := by
  unfold modPow
  rw [Nat.mod_mod_of_dvd b (dvd_refl m)]

/-! ### `modPowInt` agrees with `modPow` on non-negative bases -/

theorem natCast_tmod (x y : Nat) : (x : Int).tmod (y : Int) = ((x % y : Nat) : Int) := rfl

theorem natCast_emod (x y : Nat) : (x : Int).emod (y : Int) = ((x % y : Nat) : Int) := rfl

theorem modPowIntAux_natCast (m : Nat) :
    ∀ fuel (e b r : Nat),
    modPowIntAux m fuel (b : Int) e (r : Int) = ((modPowAux m fuel b e r : Nat) : Int) := by
  intro fuel
  induction fuel with
  | zero => intro e b r; simp [modPowIntAux, modPowAux]
  | succ fuel ih =>
    intro e b r
    rcases Nat.eq_zero_or_pos e with he0 | hepos
    · subst he0; simp [modPowIntAux, modPowAux]
    · have hL : modPowIntAux m (fuel + 1) (b : Int) e (r : Int) =
          modPowIntAux m fuel (((b : Int) * (b : Int)).tmod (m : Int)) (e / 2)
            (if e % 2 = 1 then ((r : Int) * (b : Int)).tmod (m : Int) else (r : Int)) := by
        simp [modPowIntAux, hepos]
      have hR : modPowAux m (fuel + 1) b e r =
          modPowAux m fuel ((b * b) % m) (e / 2)
            (if e % 2 = 1 then (r * b) % m else r) := by
        simp [modPowAux, hepos]
      rw [hL, hR]
      have hb2 : ((b : Int) * (b : Int)).tmod (m : Int) = (((b * b) % m : Nat) : Int) := by
        rw [← Nat.cast_mul, natCast_tmod]
      have hr2 : (if e % 2 = 1 then ((r : Int) * (b : Int)).tmod (m : Int) else (r : Int)) =
          (((if e % 2 = 1 then (r * b) % m else r) : Nat) : Int) := by
        by_cases hodd : e % 2 = 1
        · rw [if_pos hodd, if_pos hodd, ← Nat.cast_mul, natCast_tmod]
        · rw [if_neg hodd, if_neg hodd]
      rw [hb2, hr2]
      exact ih (e / 2) ((b * b) % m) _

theorem modPowInt_natCast (b e m : Nat) :
    modPowInt (b : Int) e m = ((modPow b e m : Nat) : Int) := by
  unfold modPowInt modPow
  rw [natCast_tmod]
  exact_mod_cast modPowIntAux_natCast m (e + 1) e (b % m) 1

theorem toUint16_natCast (v : Nat) : toUint16 (v : Int) = v % 65536 := by
  unfold toUint16
  rw [show ((65536 : Int)) = ((65536 : Nat) : Int) by rfl, natCast_emod]
  exact Int.toNat_ofNat _

/-! ### Correctness of the trial-division primality test -/

theorem isPrimeAux_eq (n : Nat) :
    ∀ fuel i, i % 2 = 1 → n < (i + 2 * fuel) * (i + 2 * fuel) →
    (isPrimeAux n fuel i = true ↔
      ∀ j, i ≤ j → j % 2 = 1 → j * j ≤ n → ¬ (j ∣ n)) := by
  intro fuel
  induction fuel with
  | zero =>
    intro i hodd hbound
    simp only [isPrimeAux, true_iff]
    intro j hij _ hjj _
    have hij2 : i * i ≤ j * j := Nat.mul_le_mul hij hij
    simp only [Nat.mul_zero, Nat.add_zero] at hbound
    omega
  | succ fuel ih =>
    intro i hodd hbound
    by_cases hii : i * i ≤ n
    · by_cases hdiv : n % i = 0
      · simp only [isPrimeAux, if_pos hii, if_pos hdiv, Bool.false_eq_true, false_iff]
        intro hall
        exact hall i (Nat.le_refl i) hodd hii (Nat.dvd_of_mod_eq_zero hdiv)
      · have hrec : isPrimeAux n (fuel + 1) i = isPrimeAux n fuel (i + 2) := by
          simp [isPrimeAux, hii, hdiv]
        rw [hrec, ih (i + 2) (by omega) (by
          have : i + 2 + 2 * fuel = i + 2 * (fuel + 1) := by omega
          rw [this]; exact hbound)]
        constructor
        · intro hall j hij hjodd hjj
          rcases Nat.lt_or_ge j (i + 2) with hlt | hge
          · have : j = i := by omega
            subst this
            intro hdvd
            obtain ⟨c, hc⟩ := hdvd
            apply hdiv
            rw [hc]
            exact Nat.mul_mod_right j c
          · exact hall j hge hjodd hjj
        · intro hall j hij hjodd hjj
          exact hall j (by omega) hjodd hjj
    · simp only [isPrimeAux, if_neg hii, true_iff]
      intro j hij _ hjj _
      have hij2 : i * i ≤ j * j := Nat.mul_le_mul hij hij
      omega

theorem isPrime_iff_prime (n : Nat) : isPrime n = true ↔ Nat.Prime n := by
  unfold isPrime
  by_cases h2 : n < 2
  · simp only [if_pos h2, Bool.false_eq_true, false_iff]
    intro hp
    have := hp.two_le
    omega
  · by_cases heq2 : n = 2
    · subst heq2
      simp [Nat.prime_two]
    · by_cases heven : n % 2 = 0
      · simp only [if_neg h2, if_neg heq2, if_pos heven, Bool.false_eq_true, false_iff]
        intro hp
        rcases hp.eq_two_or_odd with h | h
        · exact heq2 h
        · omega
      · simp only [if_neg h2, if_neg heq2, if_neg heven]
        have hn3 : 3 ≤ n := by omega
        have hnodd : n % 2 = 1 := by omega
        rw [isPrimeAux_eq n n 3 (by decide)
          (by
            have h1 : n < 3 + 2 * n := by omega
            have h2' : 3 + 2 * n ≤ (3 + 2 * n) * (3 + 2 * n) :=
              Nat.le_mul_of_pos_right _ (by omega)
            omega)]
        constructor
        · intro hall
          rw [Nat.prime_def_le_sqrt]
          refine ⟨by omega, ?_⟩
          intro m hm2 hmsqrt
          have hmm : m * m ≤ n := Nat.le_sqrt.mp hmsqrt
          rcases Nat.even_or_odd m with hmeven | hmodd
          · intro hdvd
            have h2m : 2 ∣ m := Even.two_dvd hmeven
            have h2n : 2 ∣ n := h2m.trans hdvd
            obtain ⟨c, hc⟩ := h2n
            omega
          · have hm3 : 3 ≤ m := by
              have := Nat.odd_iff.mp hmodd
              omega
            exact hall m hm3 (Nat.odd_iff.mp hmodd) hmm
        · intro hp j h3j hjodd hjj hdvd
          rcases (Nat.Prime.eq_one_or_self_of_dvd hp j hdvd) with h1 | hn
          · omega
          · subst hn
            have hj1 : j * j ≤ j * 1 := by simpa using hjj
            have : j ≤ 1 := Nat.le_of_mul_le_mul_left hj1 (by omega)
            omega

/-! ### Fermat-Euler and the textbook-RSA round-trip congruence -/

theorem fermat_step {p : Nat} (hp : p.Prime) (m t : Nat) :
    m ^ ((p - 1) * t + 1) ≡ m [MOD p] := by
  by_cases hdvd : p ∣ m
  · have h1 : m ^ ((p - 1) * t + 1) ≡ 0 [MOD p] :=
      Nat.modEq_zero_iff_dvd.mpr (dvd_pow hdvd (by omega))
    exact h1.trans (Nat.modEq_zero_iff_dvd.mpr hdvd).symm
  · have hco : Nat.Coprime m p := ((Nat.Prime.coprime_iff_not_dvd hp).mpr hdvd).symm
    have euler := Nat.ModEq.pow_totient hco
    rw [Nat.totient_prime hp] at euler
    have h2 := (euler.pow t).mul_right m
    rw [one_pow, one_mul] at h2
    have hform : m ^ ((p - 1) * t + 1) = (m ^ (p - 1)) ^ t * m := by
      rw [← pow_mul, ← pow_succ]
    rw [hform]
    exact h2

theorem rsa_core {p q e d : Nat} (hp : p.Prime) (hq : q.Prime) (hpq : p ≠ q)
    (hed : e * d ≡ 1 [MOD (p - 1) * (q - 1)]) (hed1 : 1 ≤ e * d) (m : Nat) :
    m ^ (e * d) ≡ m [MOD p * q] := by
  have hdvd : (p - 1) * (q - 1) ∣ e * d - 1 := (Nat.modEq_iff_dvd' hed1).mp hed.symm
  obtain ⟨k, hk⟩ := hdvd
  have hX : e * d = (p - 1) * (q - 1) * k + 1 := by omega
  have hcop : Nat.Coprime p q := (Nat.coprime_primes hp hq).mpr hpq
  apply (Nat.modEq_and_modEq_iff_modEq_mul hcop).mp
  constructor
  · have hform : (p - 1) * (q - 1) * k = (p - 1) * ((q - 1) * k) := by ring
    rw [hX, hform]
    exact fermat_step hp m ((q - 1) * k)
  · have hform : (p - 1) * (q - 1) * k = (q - 1) * ((p - 1) * k) := by ring
    rw [hX, hform]
    exact fermat_step hq m ((p - 1) * k)

/-! ### Facts about the totient of a valid prime pair, and inversion of
`generateRSAKeyPair` -/

theorem phi_pos {p q : Nat} (hp : p.Prime) (hq : q.Prime) :
    1 ≤ (p - 1) * (q - 1) := by
  have h2p := hp.two_le
  have h2q := hq.two_le
  calc 1 = 1 * 1 := rfl
    _ ≤ (p - 1) * (q - 1) := Nat.mul_le_mul (by omega) (by omega)

theorem phi_even {p q : Nat} (hp : p.Prime) (hq : q.Prime) (hpq : p ≠ q) :
    (p - 1) * (q - 1) % 2 = 0 := by
  have h2p := hp.two_le
  have h2q := hq.two_le
  rcases hp.eq_two_or_odd with hp2 | hpodd
  · rcases hq.eq_two_or_odd with hq2 | hqodd
    · exact absurd (hp2.trans hq2.symm) hpq
    · obtain ⟨c, hc⟩ : ∃ c, q - 1 = 2 * c := ⟨(q - 1) / 2, by omega⟩
      rw [hc, show (p - 1) * (2 * c) = 2 * ((p - 1) * c) by ring]
      exact Nat.mul_mod_right 2 _
  · obtain ⟨c, hc⟩ : ∃ c, p - 1 = 2 * c := ⟨(p - 1) / 2, by omega⟩
    rw [hc, show 2 * c * (q - 1) = 2 * (c * (q - 1)) by ring]
    exact Nat.mul_mod_right 2 _

theorem generateRSAKeyPair_ok {p q : Nat} {kp : RSAKeyPair}
    (h : generateRSAKeyPair p q = .ok kp) :
    isPrime p = true ∧ isPrime q = true ∧ p ≠ q ∧
    kp.p = p ∧ kp.q = q ∧ kp.phi = (p - 1) * (q - 1) ∧
    kp.publicKey.n = p * q ∧ kp.privateKey.n = p * q ∧
    kp.publicKey.e = findE ((p - 1) * (q - 1)) ∧
    modInverse (findE ((p - 1) * (q - 1))) ((p - 1) * (q - 1)) =
      some kp.privateKey.d := by
  unfold generateRSAKeyPair at h
  by_cases hpr : isPrime p = true ∧ isPrime q = true
  · rw [if_neg (by simpa using hpr)] at h
    by_cases hpq : p = q
    · rw [if_pos hpq] at h
      exact absurd h (by simp)
    · rw [if_neg hpq] at h
      simp only at h
      cases hmi : modInverse (findE ((p - 1) * (q - 1))) ((p - 1) * (q - 1)) with
      | none => rw [hmi] at h; exact absurd h (by simp)
      | some d0 =>
        rw [hmi] at h
        have hkp : kp = ⟨⟨findE ((p - 1) * (q - 1)), p * q⟩, ⟨d0, p * q⟩, p, q,
            (p - 1) * (q - 1)⟩ := by
          cases h
          rfl
        subst hkp
        exact ⟨hpr.1, hpr.2, hpq, rfl, rfl, rfl, rfl, rfl, rfl, rfl⟩
  · rw [if_pos (by simpa using hpr)] at h
    exact absurd h (by simp)

theorem keyPair_facts {p q : Nat} {kp : RSAKeyPair}
    (h : generateRSAKeyPair p q = .ok kp) :
    p.Prime ∧ q.Prime ∧ p ≠ q ∧
    kp.phi = (p - 1) * (q - 1) ∧
    kp.publicKey.n = p * q ∧ kp.privateKey.n = p * q ∧
    Nat.gcd kp.publicKey.e kp.phi = 1 ∧
    3 ≤ kp.publicKey.e ∧ kp.publicKey.e % 2 = 1 ∧
    (∀ e2, 3 ≤ e2 → e2 % 2 = 1 → e2 < kp.publicKey.e → Nat.gcd e2 kp.phi ≠ 1) ∧
    1 ≤ kp.privateKey.d ∧ kp.privateKey.d < kp.phi ∧
    (kp.publicKey.e * kp.privateKey.d) % kp.phi = 1 ∧
    2 ≤ kp.phi ∧ kp.phi % 2 = 0 := by
  obtain ⟨hip, hiq, hpq, _, _, hphi, hn1, hn2, he, hmi⟩ := generateRSAKeyPair_ok h
  have hp : p.Prime := (isPrime_iff_prime p).mp hip
  have hq : q.Prime := (isPrime_iff_prime q).mp hiq
  have hphipos : 1 ≤ (p - 1) * (q - 1) := phi_pos hp hq
  have hphieven : (p - 1) * (q - 1) % 2 = 0 := phi_even hp hq hpq
  have hphi2 : 2 ≤ (p - 1) * (q - 1) := by omega
  obtain ⟨hgcd, he3, heodd, hemin⟩ := findE_spec ((p - 1) * (q - 1)) hphipos
  obtain ⟨hd1, hdlt, hdinv⟩ := modInverse_some hmi
  rw [hphi, he]
  exact ⟨hp, hq, hpq, rfl, hn1, hn2, hgcd, he3, heodd,
    fun e2 a b c => hemin e2 a b c, hd1, hdlt, hdinv, hphi2, hphieven⟩

/-- C2: for every pair of distinct primes accepted by `generateRSAKeyPair`, the
returned key pair satisfies `0 < e`, `gcd(e, phi) = 1`, `d·e ≡ 1 (mod phi)`,
`0 < d < phi` and `n = p·q` in both key halves; the claimed bound `e < phi`
holds whenever `phi > 2` (it fails only for the pair `{2, 3}`, see the
counterexample). -/
theorem claim_C2_key_invariants : ∀ p q kp, generateRSAKeyPair p q = .ok kp →
    0 < kp.publicKey.e ∧
    Nat.gcd kp.publicKey.e kp.phi = 1 ∧
    kp.privateKey.d * kp.publicKey.e ≡ 1 [MOD kp.phi] ∧
    0 < kp.privateKey.d ∧ kp.privateKey.d < kp.phi ∧
    kp.publicKey.n = p * q ∧ kp.privateKey.n = p * q ∧
    (2 < kp.phi → kp.publicKey.e < kp.phi) := by
  intro p q kp h
  obtain ⟨hp, hq, hpq, hphi, hn1, hn2, hgcd, he3, heodd, hemin, hd1, hdlt,
    hdinv, hphi2, hphieven⟩ := keyPair_facts h
  refine ⟨by omega, hgcd, ?_, by omega, hdlt, hn1, hn2, ?_⟩
  · show kp.privateKey.d * kp.publicKey.e % kp.phi = 1 % kp.phi
    rw [Nat.mul_comm, hdinv, Nat.mod_eq_of_lt (by omega : 1 < kp.phi)]
  · intro hphi3
    obtain ⟨_, _, _, _, _, _, _, _, he, _⟩ := generateRSAKeyPair_ok h
    rw [he, ← hphi]
    exact findE_lt_phi kp.phi (by omega) hphieven

/-- C2 witness: the invariants instantiated at the valid pair (11, 13). -/
theorem claim_C2_witness :
    Nat.gcd 7 120 = 1 ∧ (103 * 7) % 120 = 1 % 120 ∧ 103 < 120 := by
  obtain ⟨_, hgcd, hmod, _, hdlt, _, _, _⟩ :=
    claim_C2_key_invariants 11 13 ⟨⟨7, 143⟩, ⟨103, 143⟩, 11, 13, 120⟩ (by rfl)
  exact ⟨hgcd, hmod, hdlt⟩

/-- C2 counterexample: `generateRSAKeyPair 2 3` succeeds with `e = 3` and
`phi = 2`, so the claimed invariant `e < phi` is violated. -/
theorem claim_C2_counterexample :
    generateRSAKeyPair 2 3 = .ok ⟨⟨3, 6⟩, ⟨1, 6⟩, 2, 3, 2⟩ ∧ ¬ (3 < 2) :=
  ⟨rfl, by omega⟩

/-- C3 (amended): the source chooses `e` as the smallest odd candidate from 3
upwards that is coprime with `phi`; there is no `NoValidExponent` failure
path: for `phi ≤ 2` (the pair `{2, 3}`) the loop simply passes `phi` and the
derivation still returns a key pair, with `e = 3 > phi`. -/
theorem claim_C3_exponent_selection :
    (∀ p q kp, generateRSAKeyPair p q = .ok kp →
      3 ≤ kp.publicKey.e ∧ kp.publicKey.e % 2 = 1 ∧
      Nat.gcd kp.publicKey.e kp.phi = 1 ∧
      (∀ e2, 3 ≤ e2 → e2 % 2 = 1 → e2 < kp.publicKey.e →
        Nat.gcd e2 kp.phi ≠ 1)) ∧
    generateRSAKeyPair 2 3 = .ok ⟨⟨3, 6⟩, ⟨1, 6⟩, 2, 3, 2⟩ := by
  constructor
  · intro p q kp h
    obtain ⟨_, _, _, _, _, _, hgcd, he3, heodd, hemin, _, _, _, _, _⟩ :=
      keyPair_facts h
    exact ⟨he3, heodd, hgcd, hemin⟩
  · rfl

/-- C3 witness: the selection rule instantiated at (11, 13), where
`e = 7` because 3 and 5 divide `phi = 120`. -/
theorem claim_C3_witness :
    3 ≤ (7:Nat) ∧ (7:Nat) % 2 = 1 ∧ Nat.gcd 7 120 = 1 ∧ Nat.gcd 5 120 ≠ 1 := by
  obtain ⟨he3, heodd, hgcd, hemin⟩ :=
    claim_C3_exponent_selection.1 11 13 ⟨⟨7, 143⟩, ⟨103, 143⟩, 11, 13, 120⟩ (by rfl)
  exact ⟨he3, heodd, hgcd, hemin 5 (by decide) (by decide) (by decide)⟩

/-- C3 counterexample: for `phi = 2` (`phi ≤ 2`, the situation the claim says
must fail with `NoValidExponent`), `generateRSAKeyPair` returns a key pair. -/
theorem claim_C3_counterexample :
    generateRSAKeyPair 2 3 = .ok ⟨⟨3, 6⟩, ⟨1, 6⟩, 2, 3, 2⟩ ∧
    (⟨⟨3, 6⟩, ⟨1, 6⟩, 2, 3, 2⟩ : RSAKeyPair).phi ≤ 2 :=
  ⟨rfl, by decide⟩

/-- C4 (amended): for `mod > 0` the result of `modPow` is below `mod` whenever
`exp > 0`, the base is reduced modulo `mod` before the loop, and
`modPow base 0 mod = 1` always; for `mod > 1` the result is below `mod` for
every exponent and equals `base ^ exp % mod`.  The original claim fails only
at `mod = 1`, `exp = 0`, where the source returns 1 instead of `1 mod 1 = 0`
(see the counterexample). -/
theorem claim_C4_modPow_range : ∀ b e m : Nat, 0 < m →
    modPow b e m = modPow (b % m) e m ∧
    modPow b 0 m = 1 ∧
    (0 < e → modPow b e m < m) ∧
    (1 < m → modPow b e m < m ∧ modPow b e m = b ^ e % m) := by
  intro b e m hm
  refine ⟨modPow_base_mod b e m, modPow_zero_exp b m, fun he => modPow_lt b e m hm he, ?_⟩
  intro hm1
  refine ⟨?_, modPow_eq b e m hm1⟩
  rcases Nat.eq_zero_or_pos e with he0 | hepos
  · subst he0
    rw [modPow_zero_exp]
    omega
  · exact modPow_lt b e m hm hepos

/-- C4 witness: the amended properties at `(7, 3, 10)` and `(7, 0, 10)`. -/
theorem claim_C4_witness :
    modPow 7 3 10 < 10 ∧ modPow 7 3 10 = 7 ^ 3 % 10 ∧ modPow 7 0 10 = 1 := by
  obtain ⟨_, hzero, _, hlt⟩ := claim_C4_modPow_range 7 3 10 (by omega)
  obtain ⟨_, hzero2, _, _⟩ := claim_C4_modPow_range 7 0 10 (by omega)
  exact ⟨hlt (by omega) |>.1, hlt (by omega) |>.2, hzero2⟩

/-- C4 counterexample: at `mod = 1`, `exp = 0` the source returns 1, which is
not below `mod` and differs from `1 mod 1 = 0`. -/
theorem claim_C4_counterexample :
    modPow 5 0 1 = 1 ∧ (1:Nat) % 1 = 0 ∧ ¬ modPow 5 0 1 < 1 := by
  refine ⟨rfl, rfl, ?_⟩
  intro h
  simp [modPow_zero_exp] at h

/-- C6: `generateRSAKeyPair` fails with the `InvalidPrime` kind whenever the
primality precondition fails, fails with the `DuplicatePrime` kind whenever
both inputs are prime but equal, and succeeds only when both preconditions
hold. -/
theorem claim_C6_preconditions : ∀ p q : Nat,
    (¬ (isPrime p = true ∧ isPrime q = true) →
      generateRSAKeyPair p q = .error .invalidPrime) ∧
    (isPrime p = true → isPrime q = true → p = q →
      generateRSAKeyPair p q = .error .duplicatePrime) ∧
    (∀ kp, generateRSAKeyPair p q = .ok kp →
      isPrime p = true ∧ isPrime q = true ∧ p ≠ q) := by
  intro p q
  refine ⟨?_, ?_, ?_⟩
  · intro hnp
    unfold generateRSAKeyPair
    rw [if_pos hnp]
  · intro hp hq hpq
    unfold generateRSAKeyPair
    rw [if_neg (by simp [hp, hq]), if_pos hpq]
  · intro kp h
    obtain ⟨h1, h2, h3, _⟩ := generateRSAKeyPair_ok h
    exact ⟨h1, h2, h3⟩

/-- C6 witness: `generateRSAKeyPair 4 9` fails with `InvalidPrime`,
`generateRSAKeyPair 7 7` fails with `DuplicatePrime`. -/
theorem claim_C6_witness :
    generateRSAKeyPair 4 9 = .error .invalidPrime ∧
    generateRSAKeyPair 7 7 = .error .duplicatePrime := by
  refine ⟨(claim_C6_preconditions 4 9).1 ?_, (claim_C6_preconditions 7 7).2.1 rfl rfl rfl⟩
  intro ⟨h4, _⟩
  simp [isPrime, isPrimeAux] at h4

/-- C7: for every coprime pair `(a, m)` with `m > 1`, `modInverse a m` returns
`some x` with `0 < x < m` and `(a·x) mod m = 1`, and this `x` is the unique
such value in `[1, m)`; for every pair with `gcd(a, m) ≠ 1` it returns
`none`. -/
theorem claim_C7_modInverse_correct : ∀ a m : Nat,
    (Nat.gcd a m = 1 → 1 < m →
      ∃ x, modInverse a m = some x ∧ 0 < x ∧ x < m ∧ (a * x) % m = 1 ∧
        ∀ y, y < m → (a * y) % m = 1 → y = x) ∧
    (Nat.gcd a m ≠ 1 → modInverse a m = none) := by
  intro a m
  constructor
  · intro hco hm
    have hsome := modInverse_isSome (exists_mod_inverse hco hm)
    obtain ⟨x, hx⟩ := Option.isSome_iff_exists.mp hsome
    obtain ⟨h1, hlt, hp⟩ := modInverse_some hx
    exact ⟨x, hx, h1, hlt, hp, fun y hym hyp => mod_inverse_unique hm hym hlt hyp hp⟩
  · exact modInverse_eq_none

/-- C7 witness: `modInverse 7 40 = some 23` (unique inverse of 7 modulo 40)
and `modInverse 4 6 = none` (4 and 6 are not coprime). -/
theorem claim_C7_witness :
    modInverse 7 40 = some 23 ∧ modInverse 4 6 = none := by
  obtain ⟨x, hx, _, _, _, huniq⟩ :=
    (claim_C7_modInverse_correct 7 40).1 (by decide) (by decide)
  have h23 : (23:Nat) = x := huniq 23 (by decide) (by decide)
  exact ⟨h23 ▸ hx, (claim_C7_modInverse_correct 4 6).2 (by decide)⟩

/-- C8: for every `n ≤ 10000` (in fact for every `n`), `isPrime n` agrees with
the mathematical definition of primality, returns `false` for `n < 2`, `true`
for `n = 2`, `false` for even `n > 2`, and for odd `n ≥ 3` it is `true`
exactly when no odd integer from 3 up to `⌊√n⌋` inclusive divides `n`. -/
theorem claim_C8_isPrime_correct : ∀ n : Nat, n ≤ 10000 →
    ((isPrime n = true) ↔ Nat.Prime n) ∧
    (n < 2 → isPrime n = false) ∧
    (n = 2 → isPrime n = true) ∧
    (2 < n → n % 2 = 0 → isPrime n = false) ∧
    (2 < n → n % 2 = 1 →
      ((isPrime n = true) ↔
        ∀ j, 3 ≤ j → j % 2 = 1 → j ≤ Nat.sqrt n → ¬ (j ∣ n))) := by
  intro n _
  refine ⟨isPrime_iff_prime n, ?_, ?_, ?_, ?_⟩
  · intro h2
    unfold isPrime
    rw [if_pos h2]
  · intro h2
    subst h2
    rfl
  · intro h2 heven
    unfold isPrime
    rw [if_neg (by omega), if_neg (by omega), if_pos heven]
  · intro h2 hodd
    unfold isPrime
    rw [if_neg (by omega), if_neg (by omega), if_neg (by omega)]
    rw [isPrimeAux_eq n n 3 (by decide)
      (by
        have h1 : n < 3 + 2 * n := by omega
        have h2' : 3 + 2 * n ≤ (3 + 2 * n) * (3 + 2 * n) :=
          Nat.le_mul_of_pos_right _ (by omega)
        omega)]
    constructor
    · intro hall j h3 hjodd hsqrt
      exact hall j h3 hjodd (Nat.le_sqrt.mp hsqrt)
    · intro hall j h3 hjodd hjj
      exact hall j h3 hjodd (Nat.le_sqrt.mpr hjj)

/-- C8 witness: the equivalence instantiated at 97 (prime) and 91 (composite,
odd, with divisor 7 ≤ √91). -/
theorem claim_C8_witness :
    Nat.Prime 97 ∧ ¬ Nat.Prime 91 := by
  constructor
  · exact ((claim_C8_isPrime_correct 97 (by omega)).1).mp (by decide)
  · intro h
    have := ((claim_C8_isPrime_correct 91 (by omega)).1).mpr h
    simp [isPrime, isPrimeAux] at this

/-! ### Round trip of one character -/

theorem decrypt_encrypt_unit {p q : Nat} {kp : RSAKeyPair}
    (h : generateRSAKeyPair p q = .ok kp) (c : Nat)
    (hcn : c < kp.publicKey.n) (hc16 : c < 65536) :
    toUint16 (modPowInt ((modPow (charCodeAt0 c) kp.publicKey.e kp.publicKey.n : Nat) : Int)
      kp.privateKey.d kp.privateKey.n) = c := by
  obtain ⟨hp, hq, hpq, hphi, hn1, hn2, hgcd, he3, _, _, hd1, _, hdinv, hphi2, _⟩ :=
    keyPair_facts h
  have hn4 : 1 < kp.publicKey.n := by
    have h4 : 2 * 2 ≤ p * q := Nat.mul_le_mul hp.two_le hq.two_le
    omega
  have hpriv : kp.privateKey.n = kp.publicKey.n := by rw [hn1, hn2]
  have hcc : charCodeAt0 c = c := if_pos hc16
  have hed : kp.publicKey.e * kp.privateKey.d ≡ 1 [MOD (p - 1) * (q - 1)] := by
    show kp.publicKey.e * kp.privateKey.d % ((p - 1) * (q - 1)) = 1 % ((p - 1) * (q - 1))
    rw [← hphi, hdinv, Nat.mod_eq_of_lt (by omega : 1 < kp.phi)]
  have hed1 : 1 ≤ kp.publicKey.e * kp.privateKey.d := by
    calc 1 = 1 * 1 := rfl
      _ ≤ kp.publicKey.e * kp.privateKey.d := Nat.mul_le_mul (by omega) hd1
  have hrsa : c ^ (kp.publicKey.e * kp.privateKey.d) % (p * q) = c % (p * q) :=
    rsa_core hp hq hpq hed hed1 c
  rw [hcc, modPowInt_natCast, toUint16_natCast, hpriv]
  rw [modPow_eq _ _ _ hn4, modPow_eq _ _ _ hn4]
  rw [← Nat.pow_mod, ← pow_mul]
  rw [hn1] at hcn ⊢
  rw [hrsa, Nat.mod_eq_of_lt hcn, Nat.mod_eq_of_lt hc16]

/-- C1 (amended): for every key pair produced by `generateRSAKeyPair` and
every plaintext whose characters all lie in the basic multilingual plane
(code points below `2^16`, i.e. no surrogate pairs) and have codes below `n`,
decrypting the encryption returns exactly the original text.  For astral
characters the property fails in the source, because `Array.from` iterates
code points while `charCodeAt(0)` keeps only the leading surrogate (see the
counterexample). -/
theorem claim_C1_roundtrip_bmp : ∀ (p q : Nat) (kp : RSAKeyPair) (text : List Nat),
    generateRSAKeyPair p q = .ok kp →
    (∀ c ∈ text, c < kp.publicKey.n ∧ c < 65536) →
    decryptMessage ((encryptMessage text kp.publicKey).map Int.ofNat)
      kp.privateKey = text := by
  intro p q kp text hok hc
  unfold decryptMessage encryptMessage
  rw [List.map_map, List.map_map]
  have hpt : ∀ c ∈ text,
      (((fun num => toUint16 (modPowInt num kp.privateKey.d kp.privateKey.n)) ∘
        Int.ofNat) ∘
          (fun ch => modPow (charCodeAt0 ch) kp.publicKey.e kp.publicKey.n)) c = id c := by
    intro c hcm
    simp only [Function.comp_apply, id_eq]
    exact decrypt_encrypt_unit hok c (hc c hcm).1 (hc c hcm).2
  rw [List.map_congr_left hpt, List.map_id]

/-- C1 witness: the spec's own example, `"HI"` with the pair (11, 13). -/
theorem claim_C1_witness :
    decryptMessage ((encryptMessage [72, 73] ⟨7, 143⟩).map Int.ofNat)
      ⟨103, 143⟩ = [72, 73] :=
  claim_C1_roundtrip_bmp 11 13 ⟨⟨7, 143⟩, ⟨103, 143⟩, 11, 13, 120⟩ [72, 73]
    (by rfl) (by decide)

theorem generateRSAKeyPair_eq_ok {p q : Nat} (hp : isPrime p = true)
    (hq : isPrime q = true) (hpq : p ≠ q) {d : Nat}
    (hmi : modInverse (findE ((p - 1) * (q - 1))) ((p - 1) * (q - 1)) = some d) :
    generateRSAKeyPair p q =
      .ok ⟨⟨findE ((p - 1) * (q - 1)), p * q⟩, ⟨d, p * q⟩, p, q,
        (p - 1) * (q - 1)⟩ := by
  unfold generateRSAKeyPair
  rw [if_neg (by simp [hp, hq]), if_neg hpq]
  simp only [hmi]

theorem modInverse_7_120780 : modInverse 7 120780 = some 51763 := by
  have hsome := modInverse_isSome (a := 7) (m := 120780)
    ⟨51763, by omega, by omega, by norm_num⟩
  obtain ⟨x, hx⟩ := Option.isSome_iff_exists.mp hsome
  obtain ⟨_, hlt, hp⟩ := modInverse_some hx
  have hxval : (51763 : Nat) = x :=
    mod_inverse_unique (by omega) (by omega) hlt (by norm_num) hp
  rw [hx, ← hxval]

/-- C1 counterexample: with the valid prime pair (331, 367) the modulus
`n = 121477` exceeds every UTF-16 code unit and the code point of `𝄞`
(119070), yet decrypting the encryption of that one-character string yields
the single lone surrogate 55348 instead of the two code units of the
original. -/
theorem claim_C1_counterexample :
    generateRSAKeyPair 331 367 = .ok ⟨⟨7, 121477⟩, ⟨51763, 121477⟩, 331, 367, 120780⟩ ∧
    stringUnits [119070] = [55348, 56606] ∧
    55348 < 121477 ∧ 56606 < 121477 ∧ 119070 < 121477 ∧
    decryptMessage ((encryptMessage [119070] ⟨7, 121477⟩).map Int.ofNat)
      ⟨51763, 121477⟩ = [55348] := by
  refine ⟨?_, by decide, by decide, by decide, by decide, by decide⟩
  have hfe : findE ((331 - 1) * (367 - 1)) = 7 := by decide
  have hmi : modInverse (findE ((331 - 1) * (367 - 1))) ((331 - 1) * (367 - 1)) =
      some 51763 := by
    rw [hfe]
    exact modInverse_7_120780
  have h := generateRSAKeyPair_eq_ok (p := 331) (q := 367)
    (by decide) (by decide) (by decide) hmi
  rw [h, hfe]

/-- C5 (amended): the decrypt pipeline fails with `MalformedCiphertext`,
returning no plaintext at all, exactly when some ciphertext element parses to
`NaN` (no leading integer, e.g. `"abc"`); an element that is not a
well-formed non-negative integer but has a parsable numeric prefix (such as
`"12abc"`) is silently decrypted from that prefix instead of failing (see
the counterexample). -/
theorem claim_C5_malformed_rejection : ∀ (elems : List String) (key : PrivateKey),
    ((∃ s ∈ elems, jsParseInt s = none) →
      decrypt elems key = .error .malformedCiphertext) ∧
    ((∀ s ∈ elems, (jsParseInt s).isSome = true) →
      decrypt elems key =
        .ok (decryptMessage ((elems.map jsParseInt).filterMap id) key)) := by
  intro elems key
  constructor
  · intro ⟨s, hs, hnone⟩
    have hany : (elems.map jsParseInt).any Option.isNone = true :=
      List.any_eq_true.mpr ⟨jsParseInt s, List.mem_map_of_mem jsParseInt hs,
        by rw [hnone]; rfl⟩
    simp [decrypt, hany]
  · intro hall
    have hnot : (elems.map jsParseInt).any Option.isNone = false := by
      rw [List.any_eq_false]
      intro o ho
      obtain ⟨s, hs, rfl⟩ := List.mem_map.mp ho
      have := hall s hs
      simp [Option.isNone_iff_eq_none]
      intro hcontra
      rw [hcontra] at this
      simp at this
    simp [decrypt, hnot]

/-- C5 witness: a fully non-numeric element makes the whole decryption fail
with `MalformedCiphertext` and no plaintext is produced. -/
theorem claim_C5_witness :
    decrypt ["abc"] ⟨103, 143⟩ = .error .malformedCiphertext :=
  (claim_C5_malformed_rejection ["abc"] ⟨103, 143⟩).1
    ⟨"abc", by simp, by decide⟩

/-- C5 counterexample: `"12abc"` is not a well-formed non-negative integer,
yet the pipeline parses it to 12 and decrypts successfully instead of
failing. -/
theorem claim_C5_counterexample :
    isWellFormedNonNegInt "12abc" = false ∧
    decrypt ["12abc"] ⟨103, 143⟩ = .ok [12] :=
  ⟨by decide, rfl⟩

/-- C9: the key-generation trace always has exactly 4 records, and the
encryption trace has one record per input character whose numeric result is
the corresponding ciphertext element of `encryptMessage` on the same
inputs. -/
theorem claim_C9_trace_shapes : ∀ (p q : Nat) (kp : RSAKeyPair)
    (msg : List Nat) (pub : PublicKey),
    generateRSAKeyPair p q = .ok kp →
    ((getKeyGenerationSteps p q kp).records).length = 4 ∧
    (getEncryptionSteps msg pub).length = msg.length ∧
    (encryptMessage msg pub).length = msg.length ∧
    (∀ i (h1 : i < (getEncryptionSteps msg pub).length)
        (h2 : i < (encryptMessage msg pub).length),
      ((getEncryptionSteps msg pub).get ⟨i, h1⟩).result =
        (encryptMessage msg pub).get ⟨i, h2⟩) := by
  intro p q kp msg pub _
  refine ⟨rfl, by simp [getEncryptionSteps], by simp [encryptMessage], ?_⟩
  intro i h1 h2
  have hi : i < msg.length := by simpa [getEncryptionSteps] using h1
  simp [getEncryptionSteps, encryptMessage, List.get_eq_getElem]

/-- C9 witness: the shapes at the pair (11, 13) with the plaintext `"HI"`. -/
theorem claim_C9_witness :
    ((getKeyGenerationSteps 11 13 ⟨⟨7, 143⟩, ⟨103, 143⟩, 11, 13, 120⟩).records).length = 4 ∧
    (getEncryptionSteps [72, 73] ⟨7, 143⟩).length = 2 := by
  obtain ⟨h4, hlen, _, _⟩ :=
    claim_C9_trace_shapes 11 13 ⟨⟨7, 143⟩, ⟨103, 143⟩, 11, 13, 120⟩ [72, 73]
      ⟨7, 143⟩ (by rfl)
  exact ⟨h4, hlen⟩

/-- C10 (amended): `decryptMessage` never fails: on every integer ciphertext
array and key `(d, n)` with `n > 0` it returns a string of the same length
whose i-th character has code point `modPow(ciphertext[i], d, n) mod 2^16`
(the `ToUint16` wrap of `String.fromCharCode`); the code point equals
`modPow(ciphertext[i], d, n)` exactly whenever the entry is non-negative and
`n ≤ 65536`.  For `n > 65536` the wrap is real (see the counterexample). -/
theorem claim_C10_decryptMessage_total : ∀ (c : List Int) (d n : Nat), 0 < n →
    (decryptMessage c ⟨d, n⟩).length = c.length ∧
    (∀ i (h1 : i < c.length) (h2 : i < (decryptMessage c ⟨d, n⟩).length),
      (decryptMessage c ⟨d, n⟩).get ⟨i, h2⟩ =
        toUint16 (modPowInt (c.get ⟨i, h1⟩) d n) ∧
      (∀ v : Nat, c.get ⟨i, h1⟩ = (v : Int) → n ≤ 65536 →
        (decryptMessage c ⟨d, n⟩).get ⟨i, h2⟩ = modPow v d n)) := by
  intro c d n hn
  refine ⟨by simp [decryptMessage], ?_⟩
  intro i h1 h2
  have hmap : (decryptMessage c ⟨d, n⟩).get ⟨i, h2⟩ =
      toUint16 (modPowInt (c.get ⟨i, h1⟩) d n) := by
    simp [decryptMessage, List.get_eq_getElem]
  refine ⟨hmap, ?_⟩
  intro v hv hn16
  have hlt : modPow v d n < 65536 := by
    rcases Nat.eq_zero_or_pos d with h0 | hpos
    · subst h0; rw [modPow_zero_exp]; omega
    · have := modPow_lt v d n hn hpos; omega
  rw [hmap, hv, modPowInt_natCast, toUint16_natCast, Nat.mod_eq_of_lt hlt]

/-- C10 witness: a one-element ciphertext under `(d, n) = (3, 7)`. -/
theorem claim_C10_witness :
    (decryptMessage [((5 : Nat) : Int)] ⟨3, 7⟩).length = 1 ∧
    (decryptMessage [((5 : Nat) : Int)] ⟨3, 7⟩).get ⟨0, by decide⟩ = modPow 5 3 7 := by
  obtain ⟨hlen, hel⟩ :=
    claim_C10_decryptMessage_total [((5 : Nat) : Int)] 3 7 (by decide)
  exact ⟨hlen, (hel 0 (by decide) (by decide)).2 5 rfl (by decide)⟩

/-- C10 counterexample: with `n = 65537 > 2^16` the decrypted value 65536
wraps to character code 0, so the i-th code point is not
`modPow(ciphertext[i], d, n)`. -/
theorem claim_C10_counterexample :
    decryptMessage [((65536 : Nat) : Int)] ⟨1, 65537⟩ = [0] ∧
    modPow 65536 1 65537 = 65536 ∧ (0 : Nat) ≠ 65536 :=
  ⟨rfl, rfl, by decide⟩
